import Mathlib

/-!
# The scheduling engine of `cron.go`

A shallow embedding of `src/cron.go` (package `gron`): the `Entry` record, the
`byTime` ordering, the `Cron` facade (`New`, `Start`, `Add`, `Stop`, `Entries`)
and the body of `Cron.run`, split at its `select` statement into the pieces one
iteration executes.

Modelling conventions

* A `time.Time` value is the record `Time`: its instant (signed nanoseconds from
  Go's zero instant), whether it carries a monotonic clock reading, and its
  `Location` pointer. `IsZero`, `Before` and `Sub` read the instant; `==` and
  `!=` compare the whole record, as Go compares the struct. The clock is
  steady, so the monotonic reading of a value that carries one is determined by
  its instant and only its presence is kept. The "none" of the specification
  is a value whose instant is zero; the zero value `time.Time{}` is `Time.zero`.
* `time.Now()` carries a monotonic reading and the location `Local`;
  `time.Now().Local()` has the reading stripped; the value a timer delivers is
  the `time.Now()` of the moment it fires; `Time.Add` shifts the instant and
  keeps the rest.
* `Schedule` and `Job` are interfaces of the package whose implementations are
  outside `cron.go`: a schedule is the function `Next : Time → Time`, a job is
  a value of an arbitrary type `J`, and `go entry.Job.Run()` appends the job to
  the log of dispatched jobs.
* `[]*Entry` is a list of entry records; writing through an entry pointer is
  replacing the record at its position.
* `int` counters (`total`, `index`) are natural numbers: each `Add` allocates an
  entry, so the counter stays far below `2^63`.
* An unbuffered channel is the queue of values whose senders are blocked on it.
* `now.AddDate(15, 0, 0)` is calendar arithmetic of the standard library, taken
  as the parameter `AddDate`.
* `sort.Sort` is taken by its contract (the result is a permutation of the
  slice in which no later element is `Less` than an earlier one); `sortEntries`
  is the insertion sort it runs on short slices.
* A facade call, and a piece of `run` between two points where it can block, is
  one atomic action of the system `Sys`; the wall clock is a component of the
  state, read by `time.Now()` and advanced by the action `tick`.
-/

namespace Gron

/-- A `time.Time` value: the instant `ns` in nanoseconds from the zero instant,
whether the value carries a monotonic clock reading, and its `Location` pointer
(`0` for nil). Equality of records is Go's `==` on the struct. -/
structure Time where
  ns : Int
  mono : Bool
  loc : Nat
  deriving DecidableEq

/-- The zero value `time.Time{}`. -/
def Time.zero : Time := { ns := 0, mono := false, loc := 0 }

/-- The `Location` pointer `time.Local`. -/
def localLoc : Nat := 1

/-- `time.Now()` when the wall clock reads `clock`. -/
def timeNow (clock : Int) : Time := { ns := clock, mono := true, loc := localLoc }

/-- Go's `Time.Local`: the same instant in the location `Local`, the monotonic
reading stripped. -/
def Time.Local (t : Time) : Time := { ns := t.ns, mono := false, loc := localLoc }

/-- Go's `Time.Add`. -/
def Time.Add (t : Time) (d : Int) : Time := { t with ns := t.ns + d }

/-- Go's `Time.IsZero`. -/
def Time.IsZero (t : Time) : Bool := decide (t.ns = 0)

/-- Go's `Time.Before`. -/
def Time.Before (t u : Time) : Bool := decide (t.ns < u.ns)

/-- Smallest `time.Duration` (an `int64` count of nanoseconds). -/
def minDuration : Int := -9223372036854775808

/-- Largest `time.Duration`. -/
def maxDuration : Int := 9223372036854775807

/-- Go's `Time.Sub`: the difference of the instants, saturated to the range of
`time.Duration`. -/
def Time.Sub (t u : Time) : Int :=
  if t.ns - u.ns < minDuration then minDuration
  else if maxDuration < t.ns - u.ns then maxDuration
  else t.ns - u.ns

/-- Entry of `cron.go`: a schedule (its `Next` method), the job, the next and the
previous run instants, and the registration index. -/
structure Entry (J : Type) where
  Schedule : Time → Time
  Job : J
  Next : Time
  Prev : Time
  index : Nat

variable {J : Type}

/-- The comparison `byTime.Less`, on the two entries `b[i]` and `b[j]` it reads. -/
def byTime.Less (bi bj : Entry J) : Bool :=
  if Time.IsZero bi.Next then false
  else if Time.IsZero bj.Next then true
  else Time.Before bi.Next bj.Next

/-- What `sort.Sort(byTime(entries))` establishes: no entry is `Less` than one
placed before it. -/
def SortedByTime (l : List (Entry J)) : Prop :=
  l.Pairwise (fun a b => byTime.Less b a = false)

/-- Insertion sort by `byTime.Less`, the algorithm `sort.Sort` runs on a short
slice: an entry moves left past the entries it is `Less` than. -/
def sortEntries (l : List (Entry J)) : List (Entry J) :=
  l.insertionSort (fun a b => byTime.Less b a = false)

/-- Cron of `cron.go`. `add` and `stop` are the two unbuffered channels, each as
the queue of values sent on it and not yet received. -/
structure Cron (J : Type) where
  add : List (Entry J)
  stop : Nat
  running : Bool
  total : Nat
  entries : List (Entry J)

/-- `New()`: both channels empty, every other field at its zero value. -/
def New : Cron J :=
  { add := [], stop := 0, running := false, total := 0, entries := [] }

/-- `Cron.Start`, up to `go c.run()`: the running flag is set. -/
def Cron.Start (c : Cron J) : Cron J :=
  { c with running := true }

/-- `Cron.isActive`. -/
def Cron.isActive (c : Cron J) : Bool := c.running

/-- `Cron.Add`: the new state and the returned index. The entry is built with
the zero value as `Next` and `Prev`, takes the incremented `total` as index,
and is appended to `entries` when the Cron is not active, sent on the `add`
channel otherwise (the send blocks until a loop receives the entry; the index
returned is the entry's in both cases). -/
def Cron.Add (c : Cron J) (s : Time → Time) (j : J) : Cron J × Nat :=
  let entry : Entry J :=
    { Schedule := s, Job := j, Next := Time.zero, Prev := Time.zero, index := 0 }
  let c1 : Cron J := { c with total := c.total + 1 }
  let entry : Entry J := { entry with index := c1.total }
  if !c1.isActive then
    ({ c1 with entries := c1.entries ++ [entry] }, entry.index)
  else
    ({ c1 with add := c1.add ++ [entry] }, entry.index)

/-- `Cron.Stop`: returns at once when the Cron is not active; otherwise clears
the running flag and sends one value on the `stop` channel. -/
def Cron.Stop (c : Cron J) : Cron J :=
  if !c.isActive then c
  else { c with running := false, stop := c.stop + 1 }

/-- `Cron.Entries`. -/
def Cron.Entries (c : Cron J) : List (Entry J) := c.entries

/-- Lines 152-154 of `Cron.run`: every entry gets `Next = Schedule.Next(now)`. -/
def initNext (now : Time) (entries : List (Entry J)) : List (Entry J) :=
  entries.map (fun e => { e with Next := e.Schedule now })

/-- Lines 158-162 of `Cron.run`: the first entry's `Next` when the collection is
not empty, `now.AddDate(15, 0, 0)` otherwise. -/
def chooseEffective (AddDate : Time → Int → Int → Int → Time) (now : Time) :
    List (Entry J) → Time
  | e :: _ => e.Next
  | [] => AddDate now 15 0 0

/-- Lines 167-174 of `Cron.run`, the timer branch: scanning the entries in order
and stopping at the first whose `Next` is `!=` to `effective` (a comparison of
`time.Time` structs), each entry met gets `Prev = now`,
`Next = Schedule.Next(now)` and its job is dispatched. The result is the
collection after the scan and the jobs dispatched, in order. -/
def fire (effective now : Time) : List (Entry J) → List (Entry J) × List J
  | [] => ([], [])
  | entry :: rest =>
    if entry.Next ≠ effective then (entry :: rest, [])
    else
      ({ entry with Prev := now, Next := entry.Schedule now } :: (fire effective now rest).1,
        entry.Job :: (fire effective now rest).2)

/-- Lines 176-177 of `Cron.run`, the submission branch: the received entry gets
`Next = Schedule.Next(time.Now())` and is appended. -/
def absorb (t : Time) (e : Entry J) (entries : List (Entry J)) : List (Entry J) :=
  entries ++ [{ e with Next := e.Schedule t }]

/-- Where an activation of `Cron.run` stands: before line 149, at the head of
the `for` loop (line 157), or blocked in the `select` (line 164). -/
inductive Pc
  | entry
  | top
  | wait
  deriving DecidableEq

/-- The locals of one activation of `Cron.run`, with the duration handed to
`after` at line 165 and the clock reading at which it was handed. -/
structure Run where
  pc : Pc
  effective : Time
  now : Time
  armed : Int
  armedAt : Int
  deriving DecidableEq

/-- The activation `go c.run()` creates. -/
def Run.spawned : Run :=
  { pc := Pc.entry, effective := Time.zero, now := Time.zero, armed := 0, armedAt := 0 }

/-- A Cron together with the activations of `Cron.run` started on it, the wall
clock, and the jobs dispatched so far. -/
structure Sys (J : Type) where
  c : Cron J
  runs : List Run
  clock : Int
  jobs : List J

/-- The system right after `New()`, the wall clock reading `t0`. -/
def Sys.fresh (t0 : Int) : Sys J :=
  { c := New, runs := [], clock := t0, jobs := [] }

/-- The atomic actions: the three facade calls, the passing of time, and for the
activation at position `i` the start of `run` (lines 148-154), the head of an
iteration (lines 157-162, `sorted` being what `sort.Sort` leaves), and the three
branches of the `select`. -/
inductive Act (J : Type)
  | add (s : Time → Time) (j : J)
  | start
  | stop
  | tick (d : Nat)
  | enter (i : Nat)
  | sort (i : Nat) (sorted : List (Entry J))
  | timer (i : Nat) (t : Int)
  | absorb (i : Nat)
  | quit (i : Nat)

/-- The effect of an action. -/
def Sys.apply (AddDate : Time → Int → Int → Int → Time) (s : Sys J) : Act J → Sys J
  | Act.add sch j => { s with c := (s.c.Add sch j).1 }
  | Act.start => { s with c := s.c.Start, runs := s.runs ++ [Run.spawned] }
  | Act.stop => { s with c := s.c.Stop }
  | Act.tick d => { s with clock := s.clock + d }
  | Act.enter i =>
    match s.runs[i]? with
    | none => s
    | some r =>
      { s with
        c := { s.c with entries := initNext (timeNow s.clock).Local s.c.entries }
        runs := s.runs.set i { r with pc := Pc.top, now := (timeNow s.clock).Local } }
  | Act.sort i sorted =>
    match s.runs[i]? with
    | none => s
    | some r =>
      { s with
        c := { s.c with entries := sorted }
        runs := s.runs.set i
          { r with
            pc := Pc.wait
            effective := chooseEffective AddDate r.now sorted
            armed := Time.Sub (chooseEffective AddDate r.now sorted) r.now
            armedAt := s.clock } }
  | Act.timer i t =>
    match s.runs[i]? with
    | none => s
    | some r =>
      { s with
        c := { s.c with entries := (fire r.effective (timeNow t) s.c.entries).1 }
        runs := s.runs.set i { r with pc := Pc.top, now := timeNow t }
        jobs := s.jobs ++ (fire r.effective (timeNow t) s.c.entries).2 }
  | Act.absorb i =>
    match s.runs[i]?, s.c.add with
    | some r, e :: rest =>
      { s with
        c := { s.c with entries := absorb (timeNow s.clock) e s.c.entries, add := rest }
        runs := s.runs.set i { r with pc := Pc.top } }
    | _, _ => s
  | Act.quit i =>
    { s with c := { s.c with stop := s.c.stop - 1 }, runs := s.runs.eraseIdx i }

/-- When an action can happen. The facade calls and the passing of time always
can; an action of `run` needs its activation at the right place; sorting yields a
sorted permutation; the timer delivers the clock reading `t` of the moment it
fires, not before the armed duration has elapsed; the submission and stop
branches need a value on their channel. -/
def Sys.Enabled (s : Sys J) : Act J → Prop
  | Act.add _ _ => True
  | Act.start => True
  | Act.stop => True
  | Act.tick _ => True
  | Act.enter i => ∃ r, s.runs[i]? = some r ∧ r.pc = Pc.entry
  | Act.sort i sorted =>
    (∃ r, s.runs[i]? = some r ∧ r.pc = Pc.top) ∧ sorted.Perm s.c.entries ∧ SortedByTime sorted
  | Act.timer i t =>
    ∃ r, s.runs[i]? = some r ∧ r.pc = Pc.wait ∧ r.armedAt + r.armed ≤ t ∧ t ≤ s.clock
  | Act.absorb i => (∃ r, s.runs[i]? = some r ∧ r.pc = Pc.wait) ∧ s.c.add ≠ []
  | Act.quit i => (∃ r, s.runs[i]? = some r ∧ r.pc = Pc.wait) ∧ 0 < s.c.stop

/-- The value an `Add` call returns; the other actions return nothing. -/
def Sys.ret (s : Sys J) : Act J → List Nat
  | Act.add sch j => [(s.c.Add sch j).2]
  | _ => []

/-- The steps of `run` that are not the absorption of a submitted entry. -/
def Act.isQuietLoopStep : Act J → Bool
  | Act.enter _ => true
  | Act.sort _ _ => true
  | Act.timer _ _ => true
  | Act.quit _ => true
  | _ => false

/-- The states reachable from `New()`, each with the indices the `Add` calls made
so far returned, in call order. -/
inductive Reach (AddDate : Time → Int → Int → Int → Time) : List Nat → Sys J → Prop
  | fresh (t0 : Int) : Reach AddDate [] (Sys.fresh t0)
  | step {ids : List Nat} {s : Sys J} (a : Act J) :
      Reach AddDate ids s → s.Enabled a → Reach AddDate (ids ++ s.ret a) (s.apply AddDate a)

/-- The invariant of the reachable states: `total` counts the `Add` calls, the
k-th of which returned `k`; the indices of the entries in the collection and on
the `add` channel are `1, ..., total`, each once; the entries on the `add`
channel are as `Add` built them, `Next` and `Prev` the zero value. -/
structure Inv (ids : List Nat) (s : Sys J) : Prop where
  total_eq : s.c.total = ids.length
  ids_eq : ids = List.range' 1 ids.length
  perm : ((s.c.entries ++ s.c.add).map Entry.index).Perm (List.range' 1 s.c.total)
  unset : ∀ e ∈ s.c.add, e.Next = Time.zero ∧ e.Prev = Time.zero

/-- The state after a sequence of actions. -/
def Sys.exec (AddDate : Time → Int → Int → Int → Time) (s : Sys J) (acts : List (Act J)) :
    Sys J :=
  acts.foldl (Sys.apply AddDate) s

/-! ### Sample schedules and scenarios -/

/-- A schedule firing ten nanoseconds after the reference instant. -/
def everyTen : Time → Time := fun t => t.Add 10

/-- A schedule firing at the next multiple of ten nanoseconds. -/
def nextTen : Time → Time := fun t => t.Add (10 - t.ns % 10)

/-- A schedule that never fires: the zero value for every reference instant. -/
def never : Time → Time := fun _ => Time.zero

/-- A stand-in for `AddDate` in the scenarios: years of 365 days, months of 30. -/
def plainAddDate : Time → Int → Int → Int → Time :=
  fun t y m d =>
    { ns := t.ns + ((y * 365 + m * 30 + d) * 86400) * 1000000000, mono := false, loc := t.loc }

/-- Three registrations: on the new, idle Cron, after a `Start`, and after a
`Stop`. -/
def threeAdds : List (Act Nat) :=
  [Act.add everyTen 11, Act.start, Act.add everyTen 12, Act.stop, Act.add never 13]

/-- Two registrations on a new Cron, never started. -/
def twoIdleAdds : Cron Nat :=
  ((New.Add everyTen 11).1.Add everyTen 12).1

/-- An entry due at the instant `t` in the location `Local` (not due at all when
`t` is zero), carrying the job `j`. -/
def dueAt (t : Int) (j : Nat) : Entry Nat :=
  { Schedule := never, Job := j, Next := Time.Local (timeNow t), Prev := Time.zero, index := 0 }

/-- A sorted collection in which the entries due at the instant 5 hold the same
`time.Time` value: two of them, then one entry due at 9 and one with no next
instant. -/
def tieGroup : List (Entry Nat) :=
  [{ Schedule := everyTen, Job := 11, Next := Time.Local (timeNow 5), Prev := Time.zero,
     index := 2 },
   { Schedule := never, Job := 12, Next := Time.Local (timeNow 5), Prev := Time.zero,
     index := 1 },
   { Schedule := everyTen, Job := 13, Next := Time.Local (timeNow 9), Prev := Time.zero,
     index := 3 },
   { Schedule := never, Job := 14, Next := Time.zero, Prev := Time.zero, index := 4 }]

/-- A started Cron with no entry, waiting in its `select`, on which `Add` is
called at clock reading 150: the entry is on the `add` channel. -/
def submitWhileActive : List (Act Nat) :=
  [Act.start, Act.enter 0, Act.sort 0 [], Act.tick 50, Act.add everyTen 11]

/-- The scenario `submitWhileActive`, the entry absorbed and the next iteration
at its `select`. -/
def absorbThenWait : List (Act Nat) :=
  submitWhileActive ++
    [Act.absorb 0,
     Act.sort 0
       [{ Schedule := everyTen, Job := 11, Next := timeNow 160, Prev := Time.zero, index := 1 }]]

/-- The locals of the loop in `absorbThenWait`, at its `select`: `effective` is
the absorbed entry's `Next`, `now` is still the reading taken at line 149. -/
def staleWait : Run :=
  { pc := Pc.wait, effective := timeNow 160, now := Time.Local (timeNow 100), armed := 60,
    armedAt := 150 }

/-- One entry whose schedule never fires, registered before the start; the loop
enters, sorts, and its timer fires at clock reading 100. -/
def neverFires : List (Act Nat) :=
  [Act.add never 11, Act.start, Act.enter 0,
   Act.sort 0 [{ Schedule := never, Job := 11, Next := Time.zero, Prev := Time.zero, index := 1 }],
   Act.timer 0 100]

/-- The first entry as the loop holds it in `sameInstant`: registered before the
start, its `Next` computed at line 153 from `time.Now().Local()`. -/
def firstDue : Entry Nat :=
  { Schedule := nextTen, Job := 11, Next := Time.Local (timeNow 110), Prev := Time.zero,
    index := 1 }

/-- The second entry as the loop holds it in `sameInstant`: registered while the
loop runs, its `Next` computed at line 176 from `time.Now()`. -/
def secondDue : Entry Nat :=
  { Schedule := nextTen, Job := 12, Next := timeNow 110, Prev := Time.zero, index := 2 }

/-- Two entries with the same schedule, one registered before `Start` and one
after it, at clock reading 103; both are due at the instant 110. The loop
sorts, waits, and its timer fires at clock reading 113. -/
def sameInstant : List (Act Nat) :=
  [Act.add nextTen 11, Act.start, Act.enter 0, Act.sort 0 [firstDue], Act.tick 3,
   Act.add nextTen 12, Act.absorb 0, Act.sort 0 [firstDue, secondDue], Act.tick 10,
   Act.timer 0 113]

/-! ## The ordering `byTime` -/

theorem Time.IsZero_eq_true_iff (t : Time) : Time.IsZero t = true ↔ t.ns = 0 := by
  simp [Time.IsZero]

theorem Time.IsZero_eq_false_iff (t : Time) : Time.IsZero t = false ↔ t.ns ≠ 0 := by
  simp [Time.IsZero]

theorem byTime_Less_iff (a b : Entry J) :
    byTime.Less a b = true ↔ a.Next.ns ≠ 0 ∧ (b.Next.ns = 0 ∨ a.Next.ns < b.Next.ns) := by
  unfold byTime.Less Time.IsZero Time.Before
  by_cases ha : a.Next.ns = 0 <;> by_cases hb : b.Next.ns = 0 <;> simp [ha, hb]

theorem byTime_Less_eq_false_iff (a b : Entry J) :
    byTime.Less a b = false ↔ a.Next.ns = 0 ∨ (b.Next.ns ≠ 0 ∧ b.Next.ns ≤ a.Next.ns) := by
  rw [← Bool.not_eq_true, byTime_Less_iff]
  constructor
  · intro h
    by_cases ha : a.Next.ns = 0
    · exact Or.inl ha
    · right
      constructor
      · intro hb
        exact h ⟨ha, Or.inl hb⟩
      · by_contra hlt
        exact h ⟨ha, Or.inr (by omega)⟩
  · rintro (ha | ⟨hb, hle⟩) ⟨hna, hor⟩
    · exact hna ha
    · rcases hor with h0 | hlt
      · exact hb h0
      · omega

/-- C6: `byTime.Less` is a strict weak ordering on entries (irreflexive,
transitive, with transitive incomparability); an entry with a concrete `Next`
is `Less` than one whose `Next` is the zero instant and not the other way round;
between two concrete `Next` values it is "strictly earlier"; and an entry whose
`Next` is the zero instant is `Less` than nothing. -/
theorem byTime_Less_strict_weak_order :
    (∀ a : Entry J, byTime.Less a a = false) ∧
    (∀ a b c : Entry J,
      byTime.Less a b = true → byTime.Less b c = true → byTime.Less a c = true) ∧
    (∀ a b c : Entry J,
      (byTime.Less a b = false ∧ byTime.Less b a = false) →
      (byTime.Less b c = false ∧ byTime.Less c b = false) →
      (byTime.Less a c = false ∧ byTime.Less c a = false)) ∧
    (∀ a b : Entry J, Time.IsZero a.Next = false → Time.IsZero b.Next = true →
      byTime.Less a b = true ∧ byTime.Less b a = false) ∧
    (∀ a b : Entry J, Time.IsZero a.Next = false → Time.IsZero b.Next = false →
      (byTime.Less a b = true ↔ a.Next.ns < b.Next.ns)) ∧
    (∀ a b : Entry J, Time.IsZero a.Next = true → byTime.Less a b = false) := by
  simp only [Time.IsZero_eq_true_iff, Time.IsZero_eq_false_iff]
  refine ⟨?_, ?_, ?_, ?_, ?_, ?_⟩
  · intro a
    rw [byTime_Less_eq_false_iff]
    by_cases h : a.Next.ns = 0
    · exact Or.inl h
    · exact Or.inr ⟨h, le_refl _⟩
  · intro a b c hab hbc
    rw [byTime_Less_iff] at hab hbc ⊢
    obtain ⟨ha, hab⟩ := hab
    obtain ⟨hb, hbc⟩ := hbc
    refine ⟨ha, ?_⟩
    rcases hab with h | h
    · exact absurd h hb
    · rcases hbc with h2 | h2
      · exact Or.inl h2
      · exact Or.inr (by omega)
  · rintro a b c ⟨hab, hba⟩ ⟨hbc, hcb⟩
    rw [byTime_Less_eq_false_iff] at hab hba hbc hcb ⊢
    rw [byTime_Less_eq_false_iff]
    constructor
    · by_cases ha : a.Next.ns = 0
      · exact Or.inl ha
      · right
        constructor <;> omega
    · by_cases hc : c.Next.ns = 0
      · exact Or.inl hc
      · right
        constructor <;> omega
  · intro a b ha hb
    rw [byTime_Less_iff, byTime_Less_eq_false_iff]
    exact ⟨⟨ha, Or.inl hb⟩, Or.inl hb⟩
  · intro a b ha hb
    rw [byTime_Less_iff]
    constructor
    · rintro ⟨_, h | h⟩
      · exact absurd h hb
      · exact h
    · intro h
      exact ⟨ha, Or.inr h⟩
  · intro a b ha
    rw [byTime_Less_eq_false_iff]
    exact Or.inl ha

theorem byTime_Less_strict_weak_order_witness :
    byTime.Less (dueAt 5 1) (dueAt 5 1) = false ∧
    byTime.Less (dueAt 5 1) (dueAt 0 3) = true ∧
    (byTime.Less (dueAt 5 1) (dueAt 5 3) = false ∧ byTime.Less (dueAt 5 3) (dueAt 5 1) = false) ∧
    (byTime.Less (dueAt 5 1) (dueAt 0 2) = true ∧ byTime.Less (dueAt 0 2) (dueAt 5 1) = false) ∧
    (byTime.Less (dueAt 5 1) (dueAt 9 2) = true ↔
      (dueAt 5 1).Next.ns < (dueAt 9 2).Next.ns) ∧
    byTime.Less (dueAt 0 1) (dueAt 9 2) = false :=
  ⟨byTime_Less_strict_weak_order.1 (dueAt 5 1),
    byTime_Less_strict_weak_order.2.1 (dueAt 5 1) (dueAt 9 2) (dueAt 0 3) rfl rfl,
    byTime_Less_strict_weak_order.2.2.1 (dueAt 5 1) (dueAt 5 2) (dueAt 5 3) ⟨rfl, rfl⟩ ⟨rfl, rfl⟩,
    byTime_Less_strict_weak_order.2.2.2.1 (dueAt 5 1) (dueAt 0 2) rfl rfl,
    byTime_Less_strict_weak_order.2.2.2.2.1 (dueAt 5 1) (dueAt 9 2) rfl rfl,
    byTime_Less_strict_weak_order.2.2.2.2.2 (dueAt 0 1) (dueAt 9 2) rfl⟩

/-- The insertion sort meets the contract of `sort.Sort`: its result is a
permutation of the collection, sorted by `byTime.Less`. -/
theorem sortEntries_spec (l : List (Entry J)) :
    (sortEntries l).Perm l ∧ SortedByTime (sortEntries l) := by
  haveI : IsTotal (Entry J) (fun a b => byTime.Less b a = false) :=
    ⟨fun a b => by
      simp only [byTime_Less_eq_false_iff]
      by_cases ha : a.Next.ns = 0 <;> by_cases hb : b.Next.ns = 0 <;> omega⟩
  haveI : IsTrans (Entry J) (fun a b => byTime.Less b a = false) :=
    ⟨fun a b c hab hbc => by
      simp only [byTime_Less_eq_false_iff] at hab hbc ⊢
      by_cases hc : c.Next.ns = 0 <;> omega⟩
  exact ⟨List.perm_insertionSort _ l, List.sorted_insertionSort _ l⟩

/-! ## The facade: `Add` and `Stop` -/

/-- C7: on an idle Cron, `Add(s, j)` makes `Entries()` the previous sequence
with exactly one entry appended; that entry has schedule `s`, job `j`, the zero
value as `Next` and `Prev` (and the returned index); every entry present before
is unchanged, at its position. -/
theorem Add_idle_appends_one (c : Cron J) (s : Time → Time) (j : J)
    (h : c.running = false) :
    (c.Add s j).1.Entries =
      c.Entries ++
        [{ Schedule := s, Job := j, Next := Time.zero, Prev := Time.zero,
           index := (c.Add s j).2 }] ∧
    (c.Add s j).1.Entries.length = c.Entries.length + 1 ∧
    (∀ (i : Nat) (e : Entry J), c.Entries[i]? = some e → (c.Add s j).1.Entries[i]? = some e) := by
  have h1 : (c.Add s j).1.Entries =
      c.Entries ++
        [{ Schedule := s, Job := j, Next := Time.zero, Prev := Time.zero,
           index := (c.Add s j).2 }] := by
    simp [Cron.Add, Cron.isActive, Cron.Entries, h]
  refine ⟨h1, ?_, ?_⟩
  · rw [h1]; simp
  · intro i e hi
    rw [h1]
    have hlt : i < c.Entries.length := by
      by_contra hge
      rw [List.getElem?_eq_none (by omega)] at hi
      cases hi
    rw [List.getElem?_append_left hlt]
    exact hi

theorem Add_idle_appends_one_witness :
    twoIdleAdds.running = false ∧
    ((twoIdleAdds.Add never 13).1.Entries =
        twoIdleAdds.Entries ++
          [{ Schedule := never, Job := 13, Next := Time.zero, Prev := Time.zero,
             index := (twoIdleAdds.Add never 13).2 }] ∧
      (twoIdleAdds.Add never 13).1.Entries.length = twoIdleAdds.Entries.length + 1 ∧
      (∀ (i : Nat) (e : Entry Nat), twoIdleAdds.Entries[i]? = some e →
        (twoIdleAdds.Add never 13).1.Entries[i]? = some e)) ∧
    (twoIdleAdds.Add never 13).1.Entries.map (fun e => (e.index, e.Next, e.Prev)) =
      [(1, Time.zero, Time.zero), (2, Time.zero, Time.zero), (3, Time.zero, Time.zero)] :=
  ⟨rfl, Add_idle_appends_one twoIdleAdds never 13 rfl, rfl⟩

/-- C8: on a Cron whose running flag is false `Stop()` changes nothing (so
nothing is sent on the stop channel); on a Cron whose running flag is true it
clears the flag and sends exactly one stop signal, leaving `total`, the entries
and the `add` channel as they were. -/
theorem Stop_idle_noop_active_signal (c : Cron J) :
    (c.running = false → c.Stop = c) ∧
    (c.running = true →
      c.Stop.running = false ∧ c.Stop.stop = c.stop + 1 ∧
      c.Stop.total = c.total ∧ c.Stop.entries = c.entries ∧ c.Stop.add = c.add) := by
  constructor
  · intro h
    simp [Cron.Stop, Cron.isActive, h]
  · intro h
    simp [Cron.Stop, Cron.isActive, h]

theorem Stop_idle_noop_active_signal_witness :
    ((New : Cron Nat).running = false ∧ (New : Cron Nat).Stop = New) ∧
    ((New : Cron Nat).Start.running = true ∧
      ((New : Cron Nat).Start.Stop.running = false ∧
        (New : Cron Nat).Start.Stop.stop = (New : Cron Nat).Start.stop + 1 ∧
        (New : Cron Nat).Start.Stop.total = (New : Cron Nat).Start.total ∧
        (New : Cron Nat).Start.Stop.entries = (New : Cron Nat).Start.entries ∧
        (New : Cron Nat).Start.Stop.add = (New : Cron Nat).Start.add)) :=
  ⟨⟨rfl, (Stop_idle_noop_active_signal New).1 rfl⟩,
    ⟨rfl, (Stop_idle_noop_active_signal New.Start).2 rfl⟩⟩

/-! ## The timer branch -/

/-- On a sorted collection in which every entry due at the instant of
`effective` holds the very `time.Time` value `effective`, the timer branch
updates exactly the entries whose `Next` is `effective` and dispatches the jobs
of exactly those entries, each once. -/
theorem fire_eq_map_filter (effective t : Time) :
    ∀ l : List (Entry J), SortedByTime l →
      (∀ e ∈ l, e.Next = effective ∨
        (effective.ns ≠ 0 ∧ (e.Next.ns = 0 ∨ effective.ns < e.Next.ns))) →
      fire effective t l =
        (l.map (fun e =>
            if e.Next = effective then { e with Prev := t, Next := e.Schedule t } else e),
          (l.filter (fun e => decide (e.Next = effective))).map Entry.Job) := by
  intro l
  induction l with
  | nil => intro _ _; rfl
  | cons e rest ih =>
    intro hs hge
    have hs2 := List.pairwise_cons.mp hs
    by_cases he : e.Next = effective
    · have ih2 := ih hs2.2 (fun x hx => hge x (List.mem_cons_of_mem _ hx))
      simp only [fire, he, ne_eq, not_true_eq_false, if_false, if_true, List.map_cons,
        List.filter_cons, decide_True]
      rw [ih2]
    · have hrest : ∀ x ∈ rest, x.Next ≠ effective := by
        intro x hx hxe
        have h1 := hs2.1 x hx
        rw [byTime_Less_eq_false_iff] at h1
        have h2 := hge e (List.mem_cons_self _ _)
        have h3 : x.Next.ns = effective.ns := congrArg Time.ns hxe
        rcases h2 with h2 | h2
        · exact he h2
        · omega
      have hmap : rest.map (fun e =>
            if e.Next = effective then { e with Prev := t, Next := e.Schedule t } else e)
          = rest := by
        conv_rhs => rw [← List.map_id rest]
        apply List.map_congr_left
        intro x hx
        simp [hrest x hx]
      have hfil : rest.filter (fun e => decide (e.Next = effective)) = [] := by
        rw [List.filter_eq_nil_iff]
        intro x hx
        simp [hrest x hx]
      simp only [fire, ne_eq, he, not_false_eq_true, if_true, if_false, List.map_cons,
        List.filter_cons, decide_False, hmap, hfil, List.map_nil]
      simp

theorem fire_tieGroup :
    SortedByTime tieGroup ∧
    (fire (Time.Local (timeNow 5)) (timeNow 5) tieGroup).1.map
        (fun e => (e.index, e.Next, e.Prev)) =
      [(2, timeNow 15, timeNow 5), (1, Time.zero, timeNow 5),
       (3, Time.Local (timeNow 9), Time.zero), (4, Time.zero, Time.zero)] ∧
    (fire (Time.Local (timeNow 5)) (timeNow 5) tieGroup).2 = [11, 12] := by
  refine ⟨?_, by decide, by decide⟩
  unfold SortedByTime tieGroup
  decide

theorem fire_dispatches_only_matches (effective t : Time) (l : List (Entry J)) :
    (fire effective t l).2.Sublist
      ((l.filter (fun e => decide (e.Next = effective))).map Entry.Job) := by
  induction l with
  | nil => exact List.Sublist.refl _
  | cons e rest ih =>
    by_cases he : e.Next = effective
    · simp only [fire, he, ne_eq, not_true_eq_false, if_false, List.filter_cons, decide_True,
        if_true, List.map_cons]
      exact ih.cons₂ _
    · simp only [fire, ne_eq, he, not_false_eq_true, if_true]
      exact List.nil_sublist _

theorem fire_keeps_never_at_zero (effective t : Time) (l : List (Entry J))
    (h : ∀ e ∈ l, (∀ u, Time.IsZero (e.Schedule u) = true) → Time.IsZero e.Next = true) :
    ∀ x ∈ (fire effective t l).1,
      (∀ u, Time.IsZero (x.Schedule u) = true) → Time.IsZero x.Next = true := by
  induction l with
  | nil => intro x hx; cases hx
  | cons e rest ih =>
    intro x hx hsch
    by_cases he : e.Next = effective
    · simp only [fire, he, ne_eq, not_true_eq_false, if_false, List.mem_cons] at hx
      rcases hx with rfl | hx
      · exact hsch t
      · exact ih (fun y hy => h y (List.mem_cons_of_mem _ hy)) x hx hsch
    · simp only [fire, ne_eq, he, not_false_eq_true, if_true] at hx
      exact h x hx hsch

theorem chooseEffective_nil (AddDate : Time → Int → Int → Int → Time) (now : Time) :
    chooseEffective AddDate now ([] : List (Entry J)) = AddDate now 15 0 0 :=
  rfl

theorem chooseEffective_of_concrete (AddDate : Time → Int → Int → Int → Time) (now : Time)
    (l : List (Entry J)) (hs : SortedByTime l) (hc : ∃ e ∈ l, Time.IsZero e.Next = false) :
    Time.IsZero (chooseEffective AddDate now l) = false ∧
    (∃ e ∈ l, e.Next = chooseEffective AddDate now l) ∧
    (∀ e ∈ l, Time.IsZero e.Next = false →
      (chooseEffective AddDate now l).ns ≤ e.Next.ns) := by
  simp only [Time.IsZero_eq_false_iff] at hc ⊢
  cases l with
  | nil =>
    obtain ⟨e, he, _⟩ := hc
    cases he
  | cons e0 rest =>
    have hall : ∀ e ∈ rest, e.Next.ns = 0 ∨ (e0.Next.ns ≠ 0 ∧ e0.Next.ns ≤ e.Next.ns) := by
      intro e he
      have h1 := (List.pairwise_cons.mp hs).1 e he
      rwa [byTime_Less_eq_false_iff] at h1
    have h0 : e0.Next.ns ≠ 0 := by
      obtain ⟨e, he, hne⟩ := hc
      rcases List.mem_cons.mp he with rfl | hr
      · exact hne
      · rcases hall e hr with h | h
        · exact absurd h hne
        · exact h.1
    refine ⟨h0, ⟨e0, List.mem_cons_self _ _, rfl⟩, ?_⟩
    intro e he hne
    show e0.Next.ns ≤ e.Next.ns
    rcases List.mem_cons.mp he with rfl | hr
    · exact le_refl _
    · rcases hall e hr with h | h
      · exact absurd h hne
      · exact h.2

/-! ## The invariant of the reachable states -/

theorem fire_map_index (effective t : Time) (l : List (Entry J)) :
    (fire effective t l).1.map Entry.index = l.map Entry.index := by
  induction l with
  | nil => rfl
  | cons e rest ih =>
    by_cases he : e.Next = effective <;> simp [fire, he, ih]

theorem initNext_map_index (now : Time) (l : List (Entry J)) :
    (initNext now l).map Entry.index = l.map Entry.index := by
  induction l with
  | nil => rfl
  | cons e rest ih =>
    simp only [initNext, List.map_cons, List.map_map] at ih ⊢
    rw [ih]

theorem Add_fst_total (c : Cron J) (s : Time → Time) (j : J) :
    (c.Add s j).1.total = c.total + 1 ∧ (c.Add s j).2 = c.total + 1 := by
  unfold Cron.Add
  by_cases h : c.running <;> simp [Cron.isActive, h]

theorem Add_fst_index_perm (c : Cron J) (s : Time → Time) (j : J) :
    (((c.Add s j).1.entries ++ (c.Add s j).1.add).map Entry.index).Perm
      ((c.entries ++ c.add).map Entry.index ++ [c.total + 1]) := by
  unfold Cron.Add
  by_cases h : c.running
  · simp [Cron.isActive, h]
  · simp only [Cron.isActive, h, Bool.not_false, if_true, List.map_append, List.map_cons,
      List.map_nil, List.append_assoc]
    apply List.Perm.append_left
    exact List.perm_append_comm

theorem Add_fst_unset (c : Cron J) (s : Time → Time) (j : J)
    (h : ∀ e ∈ c.add, e.Next = Time.zero ∧ e.Prev = Time.zero) :
    ∀ e ∈ (c.Add s j).1.add, e.Next = Time.zero ∧ e.Prev = Time.zero := by
  unfold Cron.Add
  by_cases hr : c.running
  · intro e he
    simp only [Cron.isActive, hr, Bool.not_true, if_false, List.mem_append,
      List.mem_singleton, Bool.false_eq_true] at he
    rcases he with he | rfl
    · exact h e he
    · exact ⟨rfl, rfl⟩
  · simpa [Cron.isActive, hr] using h

theorem Inv_fresh (t0 : Int) : Inv [] (Sys.fresh t0 : Sys J) :=
  { total_eq := rfl
    ids_eq := rfl
    perm := by simp [Sys.fresh, New]
    unset := by simp [Sys.fresh, New] }

theorem Inv_step (AddDate : Time → Int → Int → Int → Time) {ids : List Nat} {s : Sys J}
    (a : Act J) (hinv : Inv ids s) (hen : s.Enabled a) :
    Inv (ids ++ s.ret a) (s.apply AddDate a) := by
  obtain ⟨htot, hids, hperm, hun⟩ := hinv
  cases a with
  | add sch j =>
    have h1 := Add_fst_total s.c sch j
    refine ⟨?_, ?_, ?_, ?_⟩
    · simp [Sys.apply, Sys.ret, h1.1, htot]
    · simp only [Sys.ret, h1.2, List.length_append, List.length_singleton]
      rw [List.range'_1_concat, ← hids, htot, Nat.add_comm]
    · simp only [Sys.apply, h1.1]
      rw [List.range'_1_concat, Nat.add_comm 1]
      exact (Add_fst_index_perm s.c sch j).trans (List.Perm.append_right _ hperm)
    · exact Add_fst_unset s.c sch j hun
  | start => exact ⟨by simpa [Sys.apply, Sys.ret, Cron.Start] using htot,
      by simpa [Sys.ret] using hids, by simpa [Sys.apply, Cron.Start] using hperm,
      by simpa [Sys.apply, Cron.Start] using hun⟩
  | stop =>
    have hs : s.c.Stop.total = s.c.total ∧ s.c.Stop.entries = s.c.entries ∧
        s.c.Stop.add = s.c.add := by
      unfold Cron.Stop
      by_cases h : s.c.running <;> simp [Cron.isActive, h]
    refine ⟨?_, by simpa [Sys.ret] using hids, ?_, ?_⟩
    · simp [Sys.apply, Sys.ret, hs.1, htot]
    · simp only [Sys.apply, hs.1, hs.2.1, hs.2.2]; exact hperm
    · simp only [Sys.apply, hs.2.2]; exact hun
  | tick d => exact ⟨by simpa [Sys.apply, Sys.ret] using htot,
      by simpa [Sys.ret] using hids, by simpa [Sys.apply] using hperm,
      by simpa [Sys.apply] using hun⟩
  | enter i =>
    obtain ⟨r, hr, _⟩ := hen
    refine ⟨?_, by simpa [Sys.ret] using hids, ?_, ?_⟩
    · simp [Sys.apply, Sys.ret, hr, htot]
    · simp only [Sys.apply, hr, List.map_append, initNext_map_index]
      simpa using hperm
    · simp only [Sys.apply, hr]; exact hun
  | sort i sorted =>
    obtain ⟨⟨r, hr, _⟩, hp, _⟩ := hen
    refine ⟨?_, by simpa [Sys.ret] using hids, ?_, ?_⟩
    · simp [Sys.apply, Sys.ret, hr, htot]
    · simp only [Sys.apply, hr]
      exact ((hp.append_right _).map _).trans hperm
    · simp only [Sys.apply, hr]; exact hun
  | timer i t =>
    obtain ⟨r, hr, _⟩ := hen
    refine ⟨?_, by simpa [Sys.ret] using hids, ?_, ?_⟩
    · simp [Sys.apply, Sys.ret, hr, htot]
    · simp only [Sys.apply, hr, List.map_append, fire_map_index]
      simpa using hperm
    · simp only [Sys.apply, hr]; exact hun
  | absorb i =>
    obtain ⟨⟨r, hr, _⟩, hne⟩ := hen
    obtain ⟨e, rest, hadd⟩ := List.exists_cons_of_ne_nil hne
    refine ⟨?_, by simpa [Sys.ret] using hids, ?_, ?_⟩
    · simp [Sys.apply, Sys.ret, hr, hadd, htot]
    · simp only [Sys.apply, hr, hadd, absorb]
      rw [hadd] at hperm
      simpa using hperm
    · simp only [Sys.apply, hr, hadd]
      intro x hx
      exact hun x (by rw [hadd]; exact List.mem_cons_of_mem _ hx)
  | quit i => exact ⟨by simpa [Sys.apply, Sys.ret] using htot,
      by simpa [Sys.ret] using hids, by simpa [Sys.apply] using hperm,
      by simpa [Sys.apply] using hun⟩

theorem Inv_of_Reach (AddDate : Time → Int → Int → Int → Time) {ids : List Nat} {s : Sys J}
    (h : Reach AddDate ids s) : Inv ids s := by
  induction h with
  | fresh t0 => exact Inv_fresh t0
  | step a _ hen ih => exact Inv_step AddDate a ih hen

/-! ## Registration indices -/

theorem threeAdds_reach :
    Reach plainAddDate [1, 2, 3] (Sys.exec plainAddDate (Sys.fresh 0) threeAdds) :=
  Reach.step (Act.add never 13)
    (Reach.step Act.stop
      (Reach.step (Act.add everyTen 12)
        (Reach.step Act.start
          (Reach.step (Act.add everyTen 11) (Reach.fresh 0) trivial)
          trivial)
        trivial)
      trivial)
    trivial

/-- C5: along every run from `New()`, whatever `Start`, `Stop` and loop steps
are interleaved and in whichever phase the calls are made, the k-th `Add` call
returns `k`; the returned indices are therefore strictly increasing and
pairwise distinct, and `total` counts the calls. -/
theorem Add_returns_call_number (AddDate : Time → Int → Int → Int → Time)
    (ids : List Nat) (s : Sys J) (h : Reach AddDate ids s) :
    (∀ (k : Nat) (hk : k < ids.length), ids[k] = k + 1) ∧
    ids.Pairwise (fun a b => a < b) ∧ ids.Nodup ∧ s.c.total = ids.length := by
  have hinv := Inv_of_Reach AddDate h
  refine ⟨?_, ?_, ?_, hinv.total_eq⟩
  · intro k hk
    have h2 : ∀ (l : List Nat) (hl : l = List.range' 1 ids.length) (hk2 : k < l.length),
        l[k] = k + 1 := by
      intro l hl hk2
      subst hl
      rw [List.getElem_range']
      omega
    exact h2 ids hinv.ids_eq hk
  · rw [hinv.ids_eq]
    exact List.pairwise_lt_range' 1 ids.length
  · rw [hinv.ids_eq]
    exact List.nodup_range' 1 ids.length

theorem Add_returns_call_number_witness :
    Reach plainAddDate [1, 2, 3] (Sys.exec plainAddDate (Sys.fresh 0) threeAdds) ∧
    ((∀ (k : Nat) (hk : k < [1, 2, 3].length), [1, 2, 3][k] = k + 1) ∧
      [1, 2, 3].Pairwise (fun a b => a < b) ∧ [1, 2, 3].Nodup ∧
      (Sys.exec plainAddDate (Sys.fresh 0) threeAdds).c.total = [1, 2, 3].length) :=
  ⟨threeAdds_reach, Add_returns_call_number plainAddDate [1, 2, 3] _ threeAdds_reach⟩

/-! ## The submission branch and the entry collection -/

theorem submitWhileActive_reach :
    Reach plainAddDate [1] (Sys.exec plainAddDate (Sys.fresh 100) submitWhileActive) :=
  Reach.step (Act.add everyTen 11)
    (Reach.step (Act.tick 50)
      (Reach.step (Act.sort 0 [])
        (Reach.step (Act.enter 0)
          (Reach.step Act.start (Reach.fresh 100) trivial)
          ⟨_, rfl, rfl⟩)
        ⟨⟨_, rfl, rfl⟩, List.Perm.nil, List.Pairwise.nil⟩)
      trivial)
    trivial

theorem submitWhileActive_enabled :
    (Sys.exec plainAddDate (Sys.fresh 100) submitWhileActive).Enabled (Act.absorb 0) :=
  ⟨⟨_, rfl, rfl⟩, List.cons_ne_nil _ _⟩

/-- C9: in a reachable state where the submission branch can run, the entry `e`
received from the `add` channel has the zero value as `Prev`, and the branch
leaves the collection equal to the previous one with `e` appended, `e.Next` set
to `e.Schedule.Next(t)` for `t` the `time.Now()` of the absorption and nothing
else of `e` changed; the entries present before keep their place and their
fields, the rest of the channel is untouched, and no job is dispatched. -/
theorem absorb_appends_submitted (AddDate : Time → Int → Int → Int → Time)
    (ids : List Nat) (s : Sys J) (i : Nat)
    (h : Reach AddDate ids s) (hen : s.Enabled (Act.absorb i)) :
    ∃ (e : Entry J) (rest : List (Entry J)), s.c.add = e :: rest ∧
      (s.apply AddDate (Act.absorb i)).c.entries =
        s.c.entries ++ [{ e with Next := e.Schedule (timeNow s.clock) }] ∧
      e.Prev = Time.zero ∧
      (s.apply AddDate (Act.absorb i)).c.add = rest ∧
      (s.apply AddDate (Act.absorb i)).jobs = s.jobs := by
  obtain ⟨⟨r, hr, _⟩, hne⟩ := hen
  obtain ⟨e, rest, hadd⟩ := List.exists_cons_of_ne_nil hne
  have hun := (Inv_of_Reach AddDate h).unset e (by rw [hadd]; exact List.mem_cons_self _ _)
  refine ⟨e, rest, hadd, ?_, hun.2, ?_, ?_⟩ <;> simp [Sys.apply, hr, hadd, absorb]

theorem absorb_appends_submitted_witness :
    Reach plainAddDate [1] (Sys.exec plainAddDate (Sys.fresh 100) submitWhileActive) ∧
    (Sys.exec plainAddDate (Sys.fresh 100) submitWhileActive).Enabled (Act.absorb 0) ∧
    (∃ (e : Entry Nat) (rest : List (Entry Nat)),
      (Sys.exec plainAddDate (Sys.fresh 100) submitWhileActive).c.add = e :: rest ∧
      ((Sys.exec plainAddDate (Sys.fresh 100) submitWhileActive).apply plainAddDate
          (Act.absorb 0)).c.entries =
        (Sys.exec plainAddDate (Sys.fresh 100) submitWhileActive).c.entries ++
          [{ e with
             Next := e.Schedule
               (timeNow (Sys.exec plainAddDate (Sys.fresh 100) submitWhileActive).clock) }] ∧
      e.Prev = Time.zero ∧
      ((Sys.exec plainAddDate (Sys.fresh 100) submitWhileActive).apply plainAddDate
          (Act.absorb 0)).c.add = rest ∧
      ((Sys.exec plainAddDate (Sys.fresh 100) submitWhileActive).apply plainAddDate
          (Act.absorb 0)).jobs =
        (Sys.exec plainAddDate (Sys.fresh 100) submitWhileActive).jobs) ∧
    ((Sys.exec plainAddDate (Sys.fresh 100) submitWhileActive).apply plainAddDate
        (Act.absorb 0)).c.entries.map (fun e => (e.index, e.Next, e.Prev)) =
      [(1, timeNow 160, Time.zero)] :=
  ⟨submitWhileActive_reach, submitWhileActive_enabled,
    absorb_appends_submitted plainAddDate [1] _ 0 submitWhileActive_reach
      submitWhileActive_enabled,
    by decide⟩

theorem quiet_step_keeps_indices (AddDate : Time → Int → Int → Int → Time) (s : Sys J)
    (a : Act J) (hq : a.isQuietLoopStep = true) (hen : s.Enabled a) :
    ((s.apply AddDate a).c.entries.map Entry.index).Perm (s.c.entries.map Entry.index) ∧
    (s.apply AddDate a).c.entries.length = s.c.entries.length ∧
    (s.apply AddDate a).c.add = s.c.add ∧
    (s.apply AddDate a).c.total = s.c.total := by
  have hlen : ∀ l1 l2 : List (Entry J),
      (l1.map Entry.index).Perm (l2.map Entry.index) → l1.length = l2.length := by
    intro l1 l2 hp
    simpa using hp.length_eq
  cases a with
  | add sch j => simp [Act.isQuietLoopStep] at hq
  | start => simp [Act.isQuietLoopStep] at hq
  | stop => simp [Act.isQuietLoopStep] at hq
  | tick d => simp [Act.isQuietLoopStep] at hq
  | absorb i => simp [Act.isQuietLoopStep] at hq
  | enter i =>
    obtain ⟨r, hr, _⟩ := hen
    have hp : ((s.apply AddDate (Act.enter i)).c.entries.map Entry.index).Perm
        (s.c.entries.map Entry.index) := by
      simp only [Sys.apply, hr, initNext_map_index]
      exact List.Perm.refl _
    exact ⟨hp, hlen _ _ hp, by simp [Sys.apply, hr], by simp [Sys.apply, hr]⟩
  | sort i sorted =>
    obtain ⟨⟨r, hr, _⟩, hperm, _⟩ := hen
    have hp : ((s.apply AddDate (Act.sort i sorted)).c.entries.map Entry.index).Perm
        (s.c.entries.map Entry.index) := by
      simp only [Sys.apply, hr]
      exact hperm.map _
    exact ⟨hp, hlen _ _ hp, by simp [Sys.apply, hr], by simp [Sys.apply, hr]⟩
  | timer i t =>
    obtain ⟨r, hr, _⟩ := hen
    have hp : ((s.apply AddDate (Act.timer i t)).c.entries.map Entry.index).Perm
        (s.c.entries.map Entry.index) := by
      simp only [Sys.apply, hr, fire_map_index]
      exact List.Perm.refl _
    exact ⟨hp, hlen _ _ hp, by simp [Sys.apply, hr], by simp [Sys.apply, hr]⟩
  | quit i =>
    have hp : ((s.apply AddDate (Act.quit i)).c.entries.map Entry.index).Perm
        (s.c.entries.map Entry.index) := by
      simp only [Sys.apply]
      exact List.Perm.refl _
    exact ⟨hp, hlen _ _ hp, by simp [Sys.apply], by simp [Sys.apply]⟩

/-- C10: in every state reachable from `New()` by `Add`, `Start`, `Stop` and
the steps of the loop, the indices of the entries in the collection together
with those of the entries submitted but not yet absorbed are `1, ..., total`,
each exactly once; and every step of the loop other than the absorption keeps
the indices of the collection (up to order), its length, the pending
submissions and `total`. -/
theorem entries_never_removed_or_duplicated (AddDate : Time → Int → Int → Int → Time)
    (ids : List Nat) (s : Sys J) (h : Reach AddDate ids s) :
    ((s.c.entries ++ s.c.add).map Entry.index).Perm (List.range' 1 s.c.total) ∧
    ((s.c.entries ++ s.c.add).map Entry.index).Nodup ∧
    (∀ k : Nat, (1 ≤ k ∧ k ≤ s.c.total) ↔ k ∈ (s.c.entries ++ s.c.add).map Entry.index) ∧
    (∀ a : Act J, a.isQuietLoopStep = true → s.Enabled a →
      ((s.apply AddDate a).c.entries.map Entry.index).Perm (s.c.entries.map Entry.index) ∧
      (s.apply AddDate a).c.entries.length = s.c.entries.length ∧
      (s.apply AddDate a).c.add = s.c.add ∧
      (s.apply AddDate a).c.total = s.c.total) := by
  have hinv := Inv_of_Reach AddDate h
  refine ⟨hinv.perm, ?_, ?_, fun a hq hen => quiet_step_keeps_indices AddDate s a hq hen⟩
  · exact (hinv.perm.nodup_iff).mpr (List.nodup_range' 1 s.c.total)
  · intro k
    rw [hinv.perm.mem_iff, List.mem_range'_1]
    omega

theorem absorbThenWait_reach :
    Reach plainAddDate [1] (Sys.exec plainAddDate (Sys.fresh 100) absorbThenWait) :=
  Reach.step
    (Act.sort 0
      [{ Schedule := everyTen, Job := 11, Next := timeNow 160, Prev := Time.zero, index := 1 }])
    (Reach.step (Act.absorb 0) submitWhileActive_reach submitWhileActive_enabled)
    ⟨⟨_, rfl, rfl⟩, List.Perm.refl _, List.pairwise_singleton _ _⟩

theorem entries_never_removed_or_duplicated_witness :
    Reach plainAddDate [1] (Sys.exec plainAddDate (Sys.fresh 100) absorbThenWait) ∧
    ((((Sys.exec plainAddDate (Sys.fresh 100) absorbThenWait).c.entries ++
        (Sys.exec plainAddDate (Sys.fresh 100) absorbThenWait).c.add).map Entry.index).Perm
      (List.range' 1 (Sys.exec plainAddDate (Sys.fresh 100) absorbThenWait).c.total) ∧
    (((Sys.exec plainAddDate (Sys.fresh 100) absorbThenWait).c.entries ++
        (Sys.exec plainAddDate (Sys.fresh 100) absorbThenWait).c.add).map Entry.index).Nodup ∧
    (∀ k : Nat, (1 ≤ k ∧ k ≤ (Sys.exec plainAddDate (Sys.fresh 100) absorbThenWait).c.total) ↔
      k ∈ ((Sys.exec plainAddDate (Sys.fresh 100) absorbThenWait).c.entries ++
        (Sys.exec plainAddDate (Sys.fresh 100) absorbThenWait).c.add).map Entry.index) ∧
    (∀ a : Act Nat, a.isQuietLoopStep = true →
      (Sys.exec plainAddDate (Sys.fresh 100) absorbThenWait).Enabled a →
      (((Sys.exec plainAddDate (Sys.fresh 100) absorbThenWait).apply plainAddDate
          a).c.entries.map Entry.index).Perm
        ((Sys.exec plainAddDate (Sys.fresh 100) absorbThenWait).c.entries.map Entry.index) ∧
      ((Sys.exec plainAddDate (Sys.fresh 100) absorbThenWait).apply plainAddDate
          a).c.entries.length =
        (Sys.exec plainAddDate (Sys.fresh 100) absorbThenWait).c.entries.length ∧
      ((Sys.exec plainAddDate (Sys.fresh 100) absorbThenWait).apply plainAddDate a).c.add =
        (Sys.exec plainAddDate (Sys.fresh 100) absorbThenWait).c.add ∧
      ((Sys.exec plainAddDate (Sys.fresh 100) absorbThenWait).apply plainAddDate a).c.total =
        (Sys.exec plainAddDate (Sys.fresh 100) absorbThenWait).c.total)) ∧
    (Sys.exec plainAddDate (Sys.fresh 100) absorbThenWait).c.total = 1 ∧
    (Sys.exec plainAddDate (Sys.fresh 100) absorbThenWait).c.entries.map Entry.index = [1] :=
  ⟨absorbThenWait_reach,
    entries_never_removed_or_duplicated plainAddDate [1] _ absorbThenWait_reach,
    by decide, by decide⟩

/-! ## Where the loop departs from its documentation -/

/-- C1, at a failing input: one entry whose schedule never fires is registered,
the Cron is started, the loop computes `Next` (the zero value), sorts, takes
the zero value as `effective` and arms a negative wait; the timer branch then
matches the entry and dispatches its job, although its `Next` is the zero
instant before and after. -/
theorem never_firing_entry_is_dispatched :
    Reach plainAddDate [1] (Sys.exec plainAddDate (Sys.fresh 100) neverFires) ∧
    (Sys.exec plainAddDate (Sys.fresh 100)
        (neverFires.take 4)).c.entries.map (fun e => (e.index, e.Next, e.Prev)) =
      [(1, Time.zero, Time.zero)] ∧
    (Sys.exec plainAddDate (Sys.fresh 100) (neverFires.take 4)).runs.map
        (fun r => (r.effective, r.armed)) = [(Time.zero, -100)] ∧
    (Sys.exec plainAddDate (Sys.fresh 100) neverFires).jobs = [11] ∧
    (Sys.exec plainAddDate (Sys.fresh 100)
        neverFires).c.entries.map (fun e => (e.index, e.Next, e.Prev)) =
      [(1, Time.zero, timeNow 100)] :=
  ⟨Reach.step (Act.timer 0 100)
      (Reach.step
        (Act.sort 0
          [{ Schedule := never, Job := 11, Next := Time.zero, Prev := Time.zero, index := 1 }])
        (Reach.step (Act.enter 0)
          (Reach.step Act.start
            (Reach.step (Act.add never 11) (Reach.fresh 100) trivial)
            trivial)
          ⟨_, rfl, rfl⟩)
        ⟨⟨_, rfl, rfl⟩, List.Perm.refl _, List.pairwise_singleton _ _⟩)
      ⟨_, rfl, rfl, by decide, by decide⟩,
    by decide, by decide, by decide, by decide⟩

/-- C2, at a failing input: on a sorted, non-empty collection whose only entry
has the zero value as `Next`, `effective` is the zero value, whatever `now` is,
and not the instant fifteen years after `now`. -/
theorem effective_is_zero_when_all_none :
    SortedByTime
      [({ Schedule := never, Job := 11, Next := Time.zero, Prev := Time.zero, index := 1 } :
        Entry Nat)] ∧
    (∀ (AddDate : Time → Int → Int → Int → Time) (now : Time),
      chooseEffective AddDate now
        [({ Schedule := never, Job := 11, Next := Time.zero, Prev := Time.zero, index := 1 } :
          Entry Nat)] = Time.zero) ∧
    Time.IsZero (chooseEffective plainAddDate (Time.Local (timeNow 100))
        [({ Schedule := never, Job := 11, Next := Time.zero, Prev := Time.zero, index := 1 } :
          Entry Nat)]) = true ∧
    chooseEffective plainAddDate (Time.Local (timeNow 100))
        [({ Schedule := never, Job := 11, Next := Time.zero, Prev := Time.zero, index := 1 } :
          Entry Nat)] ≠
      plainAddDate (Time.Local (timeNow 100)) 15 0 0 :=
  ⟨List.pairwise_singleton _ _, fun _ _ => rfl, by decide, by decide⟩

/-- C3, at a failing input: two entries with the same schedule, the first
registered before `Start`, the second while the loop runs. Both are due at the
instant 110, but the first holds a `Next` computed from `time.Now().Local()`
and the second one computed from `time.Now()`, which carries a monotonic
reading. The collection is sorted and `effective` is the first entry's `Next`;
when the timer fires, the scan dispatches the first job, finds the second
entry's `Next` `!=` to `effective` and stops: the second entry, due at the same
instant, is neither updated nor dispatched in that iteration. -/
theorem same_instant_entries_not_fired_together :
    Reach plainAddDate [1, 2] (Sys.exec plainAddDate (Sys.fresh 100) sameInstant) ∧
    (Sys.exec plainAddDate (Sys.fresh 100) (sameInstant.take 9)).c.entries =
      [firstDue, secondDue] ∧
    SortedByTime [firstDue, secondDue] ∧
    (Sys.exec plainAddDate (Sys.fresh 100) (sameInstant.take 9)).runs.map
        (fun r => r.effective) = [firstDue.Next] ∧
    firstDue.Next.ns = 110 ∧ secondDue.Next.ns = 110 ∧
    (Sys.exec plainAddDate (Sys.fresh 100) sameInstant).jobs = [11] ∧
    (Sys.exec plainAddDate (Sys.fresh 100)
        sameInstant).c.entries.map (fun e => (e.index, e.Next, e.Prev)) =
      [(1, timeNow 120, timeNow 113), (2, timeNow 110, Time.zero)] :=
  have hsorted : SortedByTime [firstDue, secondDue] := by
    unfold SortedByTime firstDue secondDue
    decide
  ⟨Reach.step (Act.timer 0 113)
      (Reach.step (Act.tick 10)
        (Reach.step (Act.sort 0 [firstDue, secondDue])
          (Reach.step (Act.absorb 0)
            (Reach.step (Act.add nextTen 12)
              (Reach.step (Act.tick 3)
                (Reach.step (Act.sort 0 [firstDue])
                  (Reach.step (Act.enter 0)
                    (Reach.step Act.start
                      (Reach.step (Act.add nextTen 11) (Reach.fresh 100) trivial)
                      trivial)
                    ⟨_, rfl, rfl⟩)
                  ⟨⟨_, rfl, rfl⟩, List.Perm.refl _, List.pairwise_singleton _ _⟩)
                trivial)
              trivial)
            ⟨⟨_, rfl, rfl⟩, List.cons_ne_nil _ _⟩)
          ⟨⟨_, rfl, rfl⟩, List.Perm.refl _, hsorted⟩)
        trivial)
      ⟨_, rfl, rfl, by decide, by decide⟩,
    rfl, hsorted, by decide, by decide, by decide, by decide, by decide⟩

/-- C4, at a failing input: the loop is entered at clock reading 100 with no
entry and waits; at clock reading 150 an entry due ten nanoseconds later is
submitted and absorbed, so `effective` becomes the instant 160; the wait armed
in the next iteration, at clock reading 150, is `effective.Sub(now)` with the
`now` recorded at 100, that is 60 and not `160 - 150 = 10`, and the timer cannot
fire before the clock reads 210. -/
theorem wait_uses_stale_now_after_absorb :
    Reach plainAddDate [1] (Sys.exec plainAddDate (Sys.fresh 100) absorbThenWait) ∧
    (Sys.exec plainAddDate (Sys.fresh 100) absorbThenWait).clock = 150 ∧
    (Sys.exec plainAddDate (Sys.fresh 100) absorbThenWait).runs = [staleWait] ∧
    staleWait.effective.ns - 150 = 10 ∧ staleWait.armed = 60 ∧
    (∀ t : Int, (Sys.exec plainAddDate (Sys.fresh 100) absorbThenWait).Enabled (Act.timer 0 t) →
      210 ≤ t) := by
  refine ⟨absorbThenWait_reach, by decide, by decide, by decide, by decide, ?_⟩
  rintro t ⟨r, hr, _, hle, _⟩
  have hr2 : r = staleWait := by
    have h0 : (Sys.exec plainAddDate (Sys.fresh 100) absorbThenWait).runs[0]? =
        some staleWait := by
      decide
    rw [h0] at hr
    exact (Option.some.inj hr).symm
  subst hr2
  simpa [staleWait] using hle

end Gron
